import Mathlib

/-!
Verification development for the constraint-extraction engine in
`src/constraint.js` (function `constraints` and its helpers).

The JavaScript source is shallowly embedded: esprima syntax-tree nodes become
the inductive type `Expr`; the generic `traverse` becomes a fold over the
pre-order node list; each pattern-recognizer block of the single visitor
closure becomes one Lean function (`r1` .. `r6`) returning the list of
(key, Constraint) pushes it performs, or a `JsErr` when the original code
would throw a `TypeError`; the process-global mt19937/randexp random source
becomes an explicit stream `gen : Nat -> String` together with a counter
threaded through the extraction.  `fs.readFileSync` + `esprima.parse`
(external collaborators) are modelled as an already-performed
`Except JsErr Expr` input to `constraints`.
-/

/-- Quote characters, used by literal rendering and by the regex model. -/
def sqc : Char := Char.ofNat 39

/-- The double-quote character. -/
def dqc : Char := Char.ofNat 34

/-- The newline character (the one character the regex `.` does not match). -/
def nlc : Char := Char.ofNat 10

/-- Errors surfaced by the embedded code: `typeError` models a JavaScript
`TypeError` thrown inside the extraction (e.g. reading a property of
`undefined`); `inputError` models an error from the upstream file read or
parse (`fs.readFileSync` / `esprima.parse`). -/
inductive JsErr where
  | typeError (msg : String)
  | inputError (msg : String)
deriving Repr, DecidableEq

/-- A JavaScript value stored in a `Constraint`'s `value` slot: the source
assigns strings, numbers (possibly `NaN`), and the boolean `false` there. -/
inductive CVal where
  | str (s : String)
  | num (n : Int)
  | boolean (b : Bool)
  | nan
deriving Repr, DecidableEq

/-- The `Constraint` class of `constraint.js`.  `operator` is `none` when the
source stores `undefined` (e.g. `child.operator` of a call expression);
`altvalue` is declared by the class but never populated by any recognizer. -/
structure Constraint where
  ident : String
  expression : String
  operator : Option String
  value : CVal
  altvalue : Option CVal
  funcName : String
  kind : String
deriving Repr, DecidableEq

/-- Esprima node shapes used by the extractor.  `other` stands for any node
kind the recognizers never match on (Program, BlockStatement, IfStatement,
ExpressionStatement, ...), keeping only its child list for the traversal.
Parameter identifier nodes and the function-name identifier node match no
recognizer, so `funcDecl` records them as plain strings. -/
inductive Expr where
  | ident (name : String)
  | numLit (n : Nat)
  | strLit (q : Char) (inner : String)
  | boolLit (b : Bool)
  | member (obj prop : Expr)
  | call (callee : Expr) (args : List Expr)
  | unary (op : String) (arg : Expr)
  | binary (op : String) (left right : Expr)
  | funcDecl (name : String) (params : List String) (body : List Expr)
  | other (kind : String) (children : List Expr)
deriving Repr

/-- The decimal digit character for `n % 10`. -/
def digitChar (n : Nat) : Char :=
  match n with
  | 0 => '0' | 1 => '1' | 2 => '2' | 3 => '3' | 4 => '4'
  | 5 => '5' | 6 => '6' | 7 => '7' | 8 => '8' | _ => '9'

/-- Decimal digit list of a natural number, most significant first; the
fuel argument (any bound with `n ≤ fuel`) keeps the recursion structural. -/
def decDigitsF : Nat → Nat → List Char
  | 0, n => [digitChar n]
  | fuel + 1, n =>
    if n < 10 then [digitChar n]
    else decDigitsF fuel (n / 10) ++ [digitChar (n % 10)]

/-- Decimal digit list of a natural number, most significant first. -/
def decDigits (n : Nat) : List Char := decDigitsF n n

/-- Canonical decimal rendering of a natural number. -/
def natToDec (n : Nat) : String := String.mk (decDigits n)

mutual
/-- The source text of a node, as `buf.substring(child.range[0],
child.range[1])` recovers it; literals render canonically (decimal digits,
original quote character). -/
def Expr.src : Expr → String
  | .ident n => n
  | .numLit n => natToDec n
  | .strLit q inner => String.mk (q :: inner.toList ++ [q])
  | .boolLit b => cond b "true" "false"
  | .member o p => o.src ++ "." ++ p.src
  | .call c args => c.src ++ "(" ++ srcArgs args ++ ")"
  | .unary op a => op ++ a.src
  | .binary op l r => l.src ++ " " ++ op ++ " " ++ r.src
  | .funcDecl n ps b =>
      "function " ++ n ++ "(" ++ String.intercalate ", " ps ++ ") \x7b " ++ srcStmts b ++ " \x7d"
  | .other _ es => srcStmts es

/-- Comma-separated rendering of an argument list. -/
def srcArgs : List Expr → String
  | [] => ""
  | [e] => e.src
  | e :: es => e.src ++ ", " ++ srcArgs es

/-- Semicolon-separated rendering of a statement list. -/
def srcStmts : List Expr → String
  | [] => ""
  | [e] => e.src
  | e :: es => e.src ++ "; " ++ srcStmts es
end

/-- Numeric value of a decimal digit character. -/
def digitVal (c : Char) : Nat := c.toNat - 48

/-- Value of a decimal digit string (as JavaScript's radix-10 parse does). -/
def decValue (ds : List Char) : Nat := ds.foldl (fun a c => 10 * a + digitVal c) 0

/-- Characters treated as whitespace by JavaScript string-to-number trimming
(space, tab, line feed, carriage return, vertical tab, form feed). -/
def isJsSpace (c : Char) : Bool :=
  c.toNat = 32 || c.toNat = 9 || c.toNat = 10 || c.toNat = 13 ||
  c.toNat = 11 || c.toNat = 12

/-- The decimal digit characters `0`-`9`. -/
def isDigitCh (c : Char) : Bool := 48 ≤ c.toNat && c.toNat ≤ 57

/-- Hexadecimal digit predicate, for `parseInt`'s `0x` auto-detection. -/
def isHexDigitChar (c : Char) : Bool :=
  isDigitCh c || (97 ≤ c.toNat && c.toNat ≤ 102) || (65 ≤ c.toNat && c.toNat ≤ 70)

/-- Value of a hexadecimal digit character. -/
def hexDigitVal (c : Char) : Nat :=
  if isDigitCh c then c.toNat - 48
  else if 97 ≤ c.toNat && c.toNat ≤ 102 then c.toNat - 87
  else c.toNat - 55

/-- Value of a hexadecimal digit string. -/
def hexValue (ds : List Char) : Nat := ds.foldl (fun a c => 16 * a + hexDigitVal c) 0

/-- Whether the text starts with the radix-16 marker `0x`/`0X` that
`parseInt` auto-detects. -/
def hasHexMarker (cs : List Char) : Bool :=
  match cs with
  | c :: d :: _ => c = '0' && (d = 'x' || d = 'X')
  | _ => false

/-- Unsigned part of `parseInt`: an optional `0x`/`0X` prefix selects radix
16, otherwise the longest decimal-digit prefix is taken; no digits means
`NaN` (`none`). -/
def parseIntAbs (cs : List Char) : Option Nat :=
  if hasHexMarker cs then
    let ds := (cs.drop 2).takeWhile isHexDigitChar
    if ds = [] then none else some (hexValue ds)
  else
    let ds := cs.takeWhile isDigitCh
    if ds = [] then none else some (decValue ds)

/-- Sign handling of `parseInt`: an optional leading `-` or `+` before the
unsigned parse. -/
def parseIntSigned : List Char → Option Int
  | [] => none
  | c :: rest =>
    if c = '-' then (parseIntAbs rest).map (fun n => -(n : Int))
    else if c = '+' then (parseIntAbs rest).map (fun n => (n : Int))
    else (parseIntAbs (c :: rest)).map (fun n => (n : Int))

/-- Model of JavaScript `parseInt(s)` (radix unspecified): skip leading
whitespace, optional sign, then parse the longest digit prefix; `none`
models `NaN`. -/
def parseIntJS (s : String) : Option Int :=
  parseIntSigned (s.toList.dropWhile isJsSpace)

/-- The quote-character class `['"]` of the regex in the source. -/
def isQuoteChar (c : Char) : Bool := c = sqc || c = dqc

/-- Core of the quoted-string regex: given the first character and the
reversed remainder, the last character must also be a quote and the middle
(which `(.*)` captures) must contain no newline. -/
def matchQuotedCore (c : Char) : List Char → Option String
  | [] => none
  | d :: midRev =>
    if isQuoteChar c && isQuoteChar d && midRev.all (fun ch => ch ≠ nlc) then
      some (String.mk midRev.reverse)
    else none

/-- List-level model of `s.match(/^['"](.*)['"]$/)` on the character list. -/
def matchQuotedL : List Char → Option String
  | [] => none
  | c :: rest => matchQuotedCore c rest.reverse

/-- Model of `s.match(/^['"](.*)['"]$/)`, returning capture group 1: the
string must start and end with a quote character, with at least two
characters, and `.` does not match a newline. -/
def matchQuoted (s : String) : Option String := matchQuotedL s.toList

/-- `e.name` in JavaScript: the `name` field exists only on identifier
nodes; on every other node it is `undefined` (`none`). -/
def exprName : Expr → Option String
  | .ident n => some n
  | _ => none

/-- Template-literal interpolation of a possibly-`undefined` name: JavaScript
renders `undefined` as the text `undefined`. -/
def nameOrUndef : Option String → String
  | some s => s
  | none => "undefined"

/-- `child.callee.property` when the callee is a member expression, else
`undefined`. -/
def calleeProp : Expr → Option Expr
  | .member _ p => some p
  | _ => none

/-- Truth of `child.callee.property && child.callee.property.name === nm`. -/
def calleePropNameIs (callee : Expr) (nm : String) : Bool :=
  match calleeProp callee with
  | some p => exprName p = some nm
  | none => false

/-- `arguments[0].value` coerced by string concatenation (`word +=
given_word`): literal nodes expose their parsed value, every other node
yields `undefined`, which concatenates as the text `undefined`. -/
def jsValueStr : Expr → String
  | .strLit _ inner => inner
  | .numLit n => natToDec n
  | .boolLit b => cond b "true" "false"
  | _ => "undefined"

/-- Model of ECMAScript `ToNumber` on the raw texts `Expr.src` can produce
(used by the `i < rightHand` numeric coercion in the substring recognizer):
whitespace-trimmed empty text is `0`, an optionally signed nonempty decimal
digit text is its value, everything else is `NaN` (`none`). -/
def jsToNumber (s : String) : Option Int :=
  let cs := ((s.toList.dropWhile isJsSpace).reverse.dropWhile isJsSpace).reverse
  match cs with
  | [] => some 0
  | '-' :: ds => if ds ≠ [] ∧ ds.all isDigitCh then some (-(decValue ds : Int)) else none
  | '+' :: ds => if ds ≠ [] ∧ ds.all isDigitCh then some ((decValue ds : Int)) else none
  | ds => if ds.all isDigitCh then some ((decValue ds : Int)) else none

/-- Number of iterations of `for (var i = 0; i < rightHand; i++)`: the string
is numerically coerced; `NaN` makes the comparison false immediately. -/
def loopCount (rightHand : String) : Nat :=
  match jsToNumber rightHand with
  | none => 0
  | some v => v.toNat

/-- A list of pushes `constraints[key].push(c)` performed by one recognizer,
in execution order. -/
abbrev Pushes := List (String × Constraint)

/-- `new Constraint({...})` with the fields every recognizer supplies
(`altvalue` is never supplied, hence `undefined`). -/
def mkC (ident : String) (value : CVal) (funcName : String) (kind : String)
    (operator : Option String) (expression : String) : Constraint :=
  { ident := ident, expression := expression, operator := operator, value := value,
    altvalue := none, funcName := funcName, kind := kind }

/-- R1 (lines 81-114): a unary expression whose argument is a member
expression; for every parameter equal to the member's object name, push the
fabricated object-literal text and the boolean `false`, both kind
`string`, operator = the unary operator. -/
def r1 (fn : String) (params : List String) (child : Expr) : Pushes :=
  match child with
  | .unary op (.member obj prop) =>
    let expression := (Expr.unary op (.member obj prop)).src
    let pname := nameOrUndef (exprName prop)
    params.flatMap (fun p =>
      if exprName obj = some p then
        [(p, mkC p (.str (p ++ " = \x7b\x27" ++ pname ++ "\x27: true\x7d")) fn "string" (some op) expression),
         (p, mkC p (.boolean false) fn "string" (some op) expression)]
      else [])
  | _ => []

/-- The `for (let p in params)` loop shared by the two `fs` recognizers:
each iteration reads `child.arguments[0].name`, which throws a `TypeError`
when the argument list is empty, and pushes `emit p` when the first
argument is the identifier `p`. -/
def fsLoop (emit : String → Pushes) (args : List Expr) :
    List String → Except JsErr Pushes
  | [] => .ok []
  | p :: ps =>
    match args with
    | [] => .error (.typeError "Cannot read property name of undefined")
    | a :: _ => do
      let rest ← fsLoop emit args ps
      if exprName a = some p then .ok (emit p ++ rest) else .ok rest

/-- R2 (lines 118-156): `fs.readFileSync`-shaped call; pushes the three
file-fixture constraints per matching parameter.  `child.operator` of a
call expression is `undefined`. -/
def r2 (fn : String) (params : List String) (child : Expr) : Except JsErr Pushes :=
  match child with
  | .call callee args =>
    if calleePropNameIs callee "readFileSync" then
      let expression := (Expr.call callee args).src
      fsLoop (fun p =>
        [(p, mkC p (.str "\x27pathContent/file1\x27") fn "fileWithContent" none expression),
         (p, mkC p (.str "\x27pathContent/someDir\x27") fn "fileWithContent" none expression),
         (p, mkC p (.str "\x27file\x27") fn "fileExists" none expression)]) args params
    else .ok []
  | _ => .ok []

/-- R3 (lines 159-189): `fs.readdirSync`-shaped call; pushes the two
directory-fixture constraints per matching parameter. -/
def r3 (fn : String) (params : List String) (child : Expr) : Except JsErr Pushes :=
  match child with
  | .call callee args =>
    if calleePropNameIs callee "readdirSync" then
      let expression := (Expr.call callee args).src
      fsLoop (fun p =>
        [(p, mkC p (.str "\x27emptyDir\x27") fn "fileExists" none expression),
         (p, mkC p (.str "\x27nonEmptyDir\x27") fn "fileExists" none expression)]) args params
    else .ok []
  | _ => .ok []

/-- R4 (lines 193-253): equality/inequality whose left side is an
identifier.  D1 branch: the identifier is a declared parameter.  D2 branch:
it is not, but the function has exactly one parameter; a 10-digit random
string is drawn (advancing the stream counter), and `match[1]` throws a
`TypeError` when the right-hand text is not a quoted string. -/
def r4 (gen : Nat → String) (fn : String) (params : List String) (ctr : Nat)
    (child : Expr) : Except JsErr (Pushes × Nat) :=
  match child with
  | .binary op l r =>
    if op ∈ ["!=", "!==", "==", "==="] then
      match l with
      | .ident name =>
        let expression := (Expr.binary op l r).src
        let rightHand := r.src
        let m := matchQuoted rightHand
        if name ∈ params then
          .ok ([(name, mkC name (.str rightHand) fn "integer" (some op) expression),
                (name, mkC name
                  (match m with
                   | some inner => .str ("\x27NEQ - " ++ inner ++ "\x27")
                   | none => .nan) fn "integer" (some op) expression)], ctr)
        else
          match params with
          | [p] =>
            let rand := gen ctr
            match m with
            | none => .error (.typeError "Cannot read property 1 of null")
            | some inner =>
              let phone := inner ++ rand.drop 3
              .ok ([(p, mkC p (.str ("\x27NEQ - " ++ rightHand ++ "\x27")) fn "string" (some op) expression),
                    (p, mkC p (.str ("\x22" ++ phone ++ "\x22")) fn "string" (some op) expression)],
                   ctr + 1)
          | _ => .ok ([], ctr)
      | _ => .ok ([], ctr)
    else .ok ([], ctr)
  | _ => .ok ([], ctr)

/-- `parseInt(rightHand) + d`, with `NaN` propagating. -/
def parsePlus (rightHand : String) (d : Int) : CVal :=
  match parseIntJS rightHand with
  | none => .nan
  | some n => .num (n + d)

/-- R5 (lines 256-292): `<` or `>` whose left side is a declared parameter;
pushes `parseInt(rightHand) - 1` and `parseInt(rightHand) + 1`, kind
`integer`. -/
def r5 (fn : String) (params : List String) (child : Expr) : Pushes :=
  match child with
  | .binary op l r =>
    if op ∈ ["<", ">"] then
      match l with
      | .ident name =>
        if name ∈ params then
          let expression := (Expr.binary op l r).src
          let rightHand := r.src
          [(name, mkC name (parsePlus rightHand (-1)) fn "integer" (some op) expression),
           (name, mkC name (parsePlus rightHand 1) fn "integer" (some op) expression)]
        else []
      | _ => []
    else []
  | _ => []

/-- The final push of R6: `_.includes(params, child.left.callee.object.name)`
checked on the possibly-`undefined` object name. -/
def r6push (fn : String) (params : List String) (op : String)
    (word expression : String) : Option String → Except JsErr Pushes
  | some name =>
    if name ∈ params then
      .ok [(name, mkC name (.str ("\x27" ++ word ++ "\x27")) fn "string" (some op) expression)]
    else .ok []
  | none => .ok []

/-- R6 (lines 295-330): equality whose left side is a call to a member
function.  `child.left.arguments[0].value` throws a `TypeError` when that
argument list is empty; otherwise a filler run of `a` characters (length
driven by numerically coercing the raw right-hand text) is prepended to the
argument's value, and one `string` constraint is pushed when the callee's
object is a declared parameter. -/
def r6 (fn : String) (params : List String) (child : Expr) : Except JsErr Pushes :=
  match child with
  | .binary op (.call (.member obj prop) largs) r =>
    if op ∈ ["==", "!=", "===", "!=="] then
      match largs with
      | [] => .error (.typeError "Cannot read property value of undefined")
      | a :: _ =>
        let given_word := jsValueStr a
        let expression := (Expr.binary op (.call (.member obj prop) largs) r).src
        let rightHand := r.src
        let word := String.mk (List.replicate (loopCount rightHand) 'a') ++ given_word
        r6push fn params op word expression (exprName obj)
    else .ok []
  | _ => .ok []

/-- Assignment `m[k] = v` on a JavaScript object with string keys: an
existing key keeps its position and gets the new value, a new key is
appended. -/
def objSet {β : Type} (m : List (String × β)) (k : String) (v : β) :
    List (String × β) :=
  match m with
  | [] => [(k, v)]
  | (k', v') :: rest => if k' = k then (k, v) :: rest else (k', v') :: objSet rest k v

/-- The per-function constraint map: insertion-ordered object from parameter
name to its constraint list. -/
abbrev CMap := List (String × List Constraint)

/-- `_.zipObject(params, _.map(params, () => []))`: assign an empty list
under every parameter name in order (duplicates overwrite in place). -/
def initMap (params : List String) : CMap :=
  params.foldl (fun m p => objSet m p []) []

/-- `functionConstraints[funcName].constraints[ident].push(c)`: append `c`
to the list held under key `k` (the guarded recognizers only ever use keys
present in the map). -/
def pushC (m : CMap) (k : String) (c : Constraint) : CMap :=
  match m with
  | [] => []
  | (k', cs) :: rest =>
    if k' = k then (k', cs ++ [c]) :: rest else (k', cs) :: pushC rest k c

/-- Perform a recognizer's pushes in order. -/
def applyPushes (m : CMap) (ps : Pushes) : CMap :=
  ps.foldl (fun m kc => pushC m kc.1 kc.2) m

/-- One FunctionRecord of the result: the constraint map plus the declared
parameter-name list. -/
structure FunctionRecord where
  constraints : CMap
  params : List String
deriving Repr, DecidableEq

/-- The result object: function name to FunctionRecord, insertion ordered,
later same-named sibling functions overwriting earlier ones. -/
abbrev ExtResult := List (String × FunctionRecord)

mutual
/-- Pre-order node list of the source's `traverse`: the node itself, then
all children depth-first in field-declaration order. -/
def preorder : Expr → List Expr
  | .ident n => [.ident n]
  | .numLit n => [.numLit n]
  | .strLit q s => [.strLit q s]
  | .boolLit b => [.boolLit b]
  | .member o p => .member o p :: (preorder o ++ preorder p)
  | .call c args => .call c args :: (preorder c ++ preorderL args)
  | .unary op a => .unary op a :: preorder a
  | .binary op l r => .binary op l r :: (preorder l ++ preorder r)
  | .funcDecl n ps b => .funcDecl n ps b :: preorderL b
  | .other k es => .other k es :: preorderL es

/-- Pre-order node list of a node list. -/
def preorderL : List Expr → List Expr
  | [] => []
  | e :: es => preorder e ++ preorderL es
end

/-- `traverse(object, visitor)`: the visitor applied at every node of the
pre-order walk, threading state and stopping at the first thrown error. -/
def traverseN {σ : Type} (visitor : σ → Expr → Except JsErr σ) (e : Expr)
    (s : σ) : Except JsErr σ :=
  (preorder e).foldlM visitor s

/-- The body-walk visitor (the inner `traverse(node, function(child) ...)`):
all six recognizer blocks applied in source order to one visited node,
their pushes performed left to right. -/
def visitNode (gen : Nat → String) (fn : String) (params : List String)
    (st : CMap × Nat) (child : Expr) : Except JsErr (CMap × Nat) := do
  let m := applyPushes st.1 (r1 fn params child)
  let m := applyPushes m (← r2 fn params child)
  let m := applyPushes m (← r3 fn params child)
  let p4 ← r4 gen fn params st.2 child
  let m := applyPushes m p4.1
  let m := applyPushes m (r5 fn params child)
  let m := applyPushes m (← r6 fn params child)
  .ok (m, p4.2)

/-- Extraction state of the outer walk: the result object under
construction and the random-stream counter. -/
structure ExtState where
  res : ExtResult
  ctr : Nat
deriving Repr, DecidableEq

/-- The outer visitor (lines 62-336): on a `FunctionDeclaration`, record
name and parameters, initialize the per-parameter map, and walk the
function node itself with the recognizer visitor. -/
def outerVisit (gen : Nat → String) (st : ExtState) (node : Expr) :
    Except JsErr ExtState :=
  match node with
  | .funcDecl name params body => do
    let inner ← traverseN (visitNode gen name params) (.funcDecl name params body)
      (initMap params, st.ctr)
    .ok ⟨objSet st.res name ⟨inner.1, params⟩, inner.2⟩
  | _ => .ok st

/-- `constraints(filePath)`: the upfront `fs.readFileSync` + `esprima.parse`
are modelled as an already-performed `Except` value; a root-level walk with
the outer visitor builds the result. -/
def constraints (gen : Nat → String) (parsed : Except JsErr Expr) :
    Except JsErr ExtResult := do
  let root ← parsed
  let st ← traverseN (outerVisit gen) root ⟨[], 0⟩
  .ok st.res

/-- Pushes whose key is a declared parameter and whose constraint's `ident`
equals that key. -/
def GoodPushes (params : List String) (ps : Pushes) : Prop :=
  ∀ kc ∈ ps, kc.1 ∈ params ∧ kc.2.ident = kc.1

/-- Every constraint stored anywhere in the map has a declared parameter as
its `ident`. -/
def IdentInv (params : List String) (m : CMap) : Prop :=
  ∀ e ∈ m, ∀ c ∈ e.2, c.ident ∈ params

/-- First-occurrence deduplication: the key list a JavaScript object ends up
with after assigning under each name in order. -/
def dedupFirst (l : List String) : List String :=
  l.foldl (fun ks p => if p ∈ ks then ks else ks ++ [p]) []

/-- Replace a constraint's `value` by the fixed marker `NaN`, keeping
`ident`, `expression`, `operator`, `funcName` and `kind`: two runs agree
after this erasure exactly when they agree on everything except the
generated values. -/
def eraseC (c : Constraint) : Constraint := { c with value := .nan }

/-- Value-erased pushes. -/
def erasePushes (ps : Pushes) : Pushes := ps.map (fun kc => (kc.1, eraseC kc.2))

/-- Value-erased constraint map. -/
def eraseMap (m : CMap) : CMap := m.map (fun e => (e.1, e.2.map eraseC))

/-- Value-erased inner-walk state. -/
def eraseSt (s : CMap × Nat) : CMap × Nat := (eraseMap s.1, s.2)

/-- Value-erased function record. -/
def eraseRec (fr : FunctionRecord) : FunctionRecord := ⟨eraseMap fr.constraints, fr.params⟩

/-- Value-erased result object. -/
def eraseRes (r : ExtResult) : ExtResult := r.map (fun e => (e.1, eraseRec e.2))

/-- Value-erased extraction state. -/
def eraseExt (st : ExtState) : ExtState := ⟨eraseRes st.res, st.ctr⟩

/-- Value-erased extraction outcome (errors kept verbatim). -/
def eraseOut : Except JsErr ExtResult → Except JsErr ExtResult
  | .error e => .error e
  | .ok r => .ok (eraseRes r)

theorem toNat_digitChar (m : Nat) :
    48 ≤ (digitChar m).toNat ∧ (digitChar m).toNat ≤ 57 := by
  rcases m with _|_|_|_|_|_|_|_|_|m <;>
    first
    | decide
    | exact show 48 ≤ ('9' : Char).toNat ∧ ('9' : Char).toNat ≤ 57 by decide

theorem isDigitCh_digitChar (m : Nat) : isDigitCh (digitChar m) = true := by
  have h := toNat_digitChar m
  simp [isDigitCh]
  omega

theorem digitVal_digitChar {m : Nat} (h : m < 10) : digitVal (digitChar m) = m := by
  interval_cases m <;> rfl

theorem decValue_append (xs : List Char) (c : Char) :
    decValue (xs ++ [c]) = 10 * decValue xs + digitVal c := by
  simp [decValue, List.foldl_append]

theorem decValue_decDigitsF (fuel : Nat) :
    ∀ n, n ≤ fuel → decValue (decDigitsF fuel n) = n := by
  induction fuel with
  | zero =>
    intro n hn
    have : n = 0 := Nat.le_zero.mp hn
    subst this
    rfl
  | succ fuel ih =>
    intro n hn
    unfold decDigitsF
    split
    · next h =>
      simp [decValue, digitVal_digitChar h]
    · next h =>
      rw [decValue_append, ih (n / 10) (by omega), digitVal_digitChar (Nat.mod_lt _ (by omega))]
      omega

theorem decValue_decDigits (n : Nat) : decValue (decDigits n) = n :=
  decValue_decDigitsF n n (Nat.le_refl n)

theorem decDigitsF_digit (fuel : Nat) :
    ∀ n c, c ∈ decDigitsF fuel n → isDigitCh c = true := by
  induction fuel with
  | zero =>
    intro n c hc
    simp [decDigitsF] at hc
    subst hc
    exact isDigitCh_digitChar n
  | succ fuel ih =>
    intro n c hc
    unfold decDigitsF at hc
    split at hc
    · simp at hc
      subst hc
      exact isDigitCh_digitChar n
    · rcases List.mem_append.mp hc with h | h
      · exact ih _ _ h
      · simp at h
        subst h
        exact isDigitCh_digitChar (n % 10)

theorem decDigits_digit {n : Nat} {c : Char} (hc : c ∈ decDigits n) : isDigitCh c = true :=
  decDigitsF_digit n n c hc

theorem decDigitsF_ne_nil (fuel n : Nat) : decDigitsF fuel n ≠ [] := by
  cases fuel with
  | zero => simp [decDigitsF]
  | succ fuel =>
    unfold decDigitsF
    split <;> simp

theorem digit_toNat {c : Char} (h : isDigitCh c = true) :
    48 ≤ c.toNat ∧ c.toNat ≤ 57 := by
  simp [isDigitCh] at h
  exact h

theorem digit_ne {c : Char} (d : Char) (h : isDigitCh c = true)
    (hd : d.toNat < 48 ∨ 57 < d.toNat) : ¬ c = d := by
  intro he
  have hb := digit_toNat h
  subst he
  omega

theorem digit_not_space {c : Char} (h : isDigitCh c = true) : isJsSpace c = false := by
  have hb := digit_toNat h
  simp [isJsSpace]
  omega

theorem takeWhile_all {p : Char → Bool} :
    ∀ {l : List Char}, (∀ c ∈ l, p c = true) → l.takeWhile p = l := by
  intro l
  induction l with
  | nil => intro _; rfl
  | cons c t ih =>
    intro h
    rw [List.takeWhile_cons, h c (by simp)]
    simp [ih (fun d hd => h d (by simp [hd]))]

theorem hasHexMarker_digits {c d : Char} {t : List Char}
    (hd : isDigitCh d = true) : hasHexMarker (c :: d :: t) = false := by
  have hx : ¬ d = 'x' := digit_ne 'x' hd (by decide)
  have hX : ¬ d = 'X' := digit_ne 'X' hd (by decide)
  simp [hasHexMarker, hx, hX]

theorem dropWhile_head_false {p : Char → Bool} {c : Char} {t : List Char}
    (h : p c = false) : (c :: t).dropWhile p = c :: t := by
  simp [List.dropWhile_cons, h]

theorem parseIntJS_natToDec (n : Nat) : parseIntJS (natToDec n) = some (n : Int) := by
  have htl : (natToDec n).toList = decDigits n := rfl
  rcases hshape : decDigits n with _ | ⟨c, t⟩
  · exact absurd hshape (decDigitsF_ne_nil n n)
  · have hcdig : isDigitCh c = true := decDigits_digit (by rw [hshape]; simp)
    have halld : ∀ d ∈ c :: t, isDigitCh d = true := by
      intro d hd
      exact decDigits_digit (by rw [hshape]; exact hd)
    unfold parseIntJS
    rw [htl, hshape, dropWhile_head_false (digit_not_space hcdig)]
    rw [parseIntSigned]
    rw [if_neg (digit_ne '-' hcdig (by decide)), if_neg (digit_ne '+' hcdig (by decide))]
    have hhex : hasHexMarker (c :: t) = false := by
      cases t with
      | nil => rfl
      | cons d t' => exact hasHexMarker_digits (halld d (by simp))
    unfold parseIntAbs
    rw [hhex]
    simp only [Bool.false_eq_true, if_false, takeWhile_all halld]
    rw [if_neg (by simp)]
    have hdv : decValue (c :: t) = n := by
      rw [← hshape]
      exact decValue_decDigits n
    rw [hdv]
    rfl

theorem all_reverse {p : Char → Bool} : ∀ (l : List Char), l.reverse.all p = l.all p := by
  intro l
  induction l with
  | nil => rfl
  | cons c t ih => simp [List.all_append, ih, Bool.and_comm]

theorem mk_toList (s : String) : String.mk s.toList = s := rfl

theorem matchQuoted_strLit {q : Char} {inner : String}
    (hq : isQuoteChar q = true)
    (hnl : inner.toList.all (fun ch => ch ≠ nlc) = true) :
    matchQuoted (Expr.src (.strLit q inner)) = some inner := by
  have hsrc : (Expr.src (.strLit q inner)).toList = q :: (inner.toList ++ [q]) := rfl
  unfold matchQuoted
  rw [hsrc, matchQuotedL, List.reverse_append]
  simp only [List.reverse_cons, List.reverse_nil, List.nil_append, List.singleton_append]
  rw [matchQuotedCore, hq, all_reverse, hnl]
  simp [mk_toList]

theorem flatMap_count_zero {α : Type} (p : String) (f : String → List α) :
    ∀ (params : List String), params.count p = 0 →
      params.flatMap (fun q => if p = q then f q else []) = [] := by
  intro params
  induction params with
  | nil => intro _; rfl
  | cons q ps ih =>
    intro h
    simp only [List.count_cons, beq_iff_eq] at h
    have hne : ¬ p = q := by
      intro he
      simp [he] at h
    simp only [List.flatMap_cons, if_neg hne, List.nil_append]
    exact ih (by omega)

theorem flatMap_count_one {α : Type} (p : String) (f : String → List α) :
    ∀ (params : List String), params.count p = 1 →
      params.flatMap (fun q => if p = q then f q else []) = f p := by
  intro params
  induction params with
  | nil => intro h; simp at h
  | cons q ps ih =>
    intro h
    by_cases hpq : p = q
    · subst hpq
      have h1 : ps.count p = 0 := by
        rw [List.count_cons_self] at h
        omega
      simp only [List.flatMap_cons]
      rw [if_pos trivial, flatMap_count_zero p f ps h1, List.append_nil]
    · have h1 : ps.count p = 1 := by
        rw [List.count_cons_of_ne hpq] at h
        exact h
      simp only [List.flatMap_cons]
      rw [if_neg hpq, List.nil_append]
      exact ih h1

theorem fsLoop_cons (emit : String → Pushes) (a : Expr) (args : List Expr) :
    ∀ params : List String,
      fsLoop emit (a :: args) params =
        .ok (params.flatMap (fun q => if exprName a = some q then emit q else [])) := by
  intro params
  induction params with
  | nil => rfl
  | cons q ps ih =>
    rw [fsLoop, ih]
    show (if exprName a = some q then Except.ok (emit q ++ _) else Except.ok _) = _
    by_cases hq : exprName a = some q
    · simp [hq]
    · simp [hq]

theorem r5_eval (fn p : String) (params : List String) (n : Nat) (op : String)
    (hop : op ∈ (["<", ">"] : List String)) (hp : p ∈ params) :
    r5 fn params (.binary op (.ident p) (.numLit n)) =
      [(p, mkC p (.num ((n : Int) - 1)) fn "integer" (some op)
         ((Expr.binary op (.ident p) (.numLit n)).src)),
       (p, mkC p (.num ((n : Int) + 1)) fn "integer" (some op)
         ((Expr.binary op (.ident p) (.numLit n)).src))] := by
  simp only [r5]
  rw [if_pos hop, if_pos hp]
  unfold parsePlus
  rw [show (Expr.numLit n).src = natToDec n from rfl, parseIntJS_natToDec]
  simp [Int.sub_eq_add_neg]

/-- C2: for a `<` or `>` comparison whose left side is a declared parameter
`p` and whose right side is a numeric literal `n`, R5 emits exactly two
`integer` constraints on `p` with values `n - 1` and `n + 1`, in that
order, and the emitted (kind, value) pairs are identical for `<` and
`>`. -/
theorem C2_r5_two_offby_one_constraints (fn p : String) (params : List String)
    (n : Nat) (op : String) (hop : op = "<" ∨ op = ">") (hp : p ∈ params) :
    r5 fn params (.binary op (.ident p) (.numLit n)) =
      [(p, mkC p (.num ((n : Int) - 1)) fn "integer" (some op)
         ((Expr.binary op (.ident p) (.numLit n)).src)),
       (p, mkC p (.num ((n : Int) + 1)) fn "integer" (some op)
         ((Expr.binary op (.ident p) (.numLit n)).src))] ∧
    (r5 fn params (.binary "<" (.ident p) (.numLit n))).map (fun kc => (kc.2.kind, kc.2.value)) =
      (r5 fn params (.binary ">" (.ident p) (.numLit n))).map (fun kc => (kc.2.kind, kc.2.value)) := by
  constructor
  · exact r5_eval fn p params n op (by rcases hop with h | h <;> simp [h]) hp
  · rw [r5_eval fn p params n "<" (by decide) hp, r5_eval fn p params n ">" (by decide) hp]
    rfl

/-- Witness for C2 at `x < 10` in `function f(x)`. -/
theorem C2_r5_two_offby_one_constraints_witness :
    r5 "f" ["x"] (.binary "<" (.ident "x") (.numLit 10)) =
      [("x", mkC "x" (.num 9) "f" "integer" (some "<") "x < 10"),
       ("x", mkC "x" (.num 11) "f" "integer" (some "<") "x < 10")] :=
  (C2_r5_two_offby_one_constraints "f" "x" ["x"] 10 "<" (Or.inl rfl) (by decide)).1

/-- C3: for a call whose callee is a member access named `readFileSync` and
whose first argument is the declared parameter `p` (occurring once in the
parameter list), R2 emits exactly three constraints on `p`, kinds
`fileWithContent`, `fileWithContent`, `fileExists` in that order, whose
values name the content fixture `pathContent/file1`, the directory fixture
`pathContent/someDir`, and the plain-file fixture `file`. -/
theorem C3_readFileSync_three_constraints (fn p : String) (obj : Expr)
    (args : List Expr) (params : List String) (h : params.count p = 1) :
    r2 fn params (.call (.member obj (.ident "readFileSync")) (.ident p :: args)) =
      .ok [(p, mkC p (.str "\x27pathContent/file1\x27") fn "fileWithContent" none
             ((Expr.call (.member obj (.ident "readFileSync")) (.ident p :: args)).src)),
           (p, mkC p (.str "\x27pathContent/someDir\x27") fn "fileWithContent" none
             ((Expr.call (.member obj (.ident "readFileSync")) (.ident p :: args)).src)),
           (p, mkC p (.str "\x27file\x27") fn "fileExists" none
             ((Expr.call (.member obj (.ident "readFileSync")) (.ident p :: args)).src))] := by
  simp only [r2]
  rw [if_pos (show calleePropNameIs (.member obj (.ident "readFileSync")) "readFileSync" = true from rfl)]
  rw [fsLoop_cons]
  simp only [exprName, Option.some.injEq]
  rw [flatMap_count_one p _ params h]

/-- Witness for C3 at `fs.readFileSync(p)` in `function f(p)`. -/
theorem C3_readFileSync_three_constraints_witness :
    r2 "f" ["p"] (.call (.member (.ident "fs") (.ident "readFileSync")) [.ident "p"]) =
      .ok [("p", mkC "p" (.str "\x27pathContent/file1\x27") "f" "fileWithContent" none "fs.readFileSync(p)"),
           ("p", mkC "p" (.str "\x27pathContent/someDir\x27") "f" "fileWithContent" none "fs.readFileSync(p)"),
           ("p", mkC "p" (.str "\x27file\x27") "f" "fileExists" none "fs.readFileSync(p)")] :=
  C3_readFileSync_three_constraints "f" "p" (.ident "fs") [] ["p"] (by decide)

/-- C10: for a `<` or `>` comparison on a declared parameter whose
right-hand source text does not parse as an integer, R5 still emits exactly
two `integer` constraints, both with value `NaN`. -/
theorem C10_r5_nan_on_unparsable (fn p : String) (params : List String)
    (rhs : Expr) (op : String) (hop : op ∈ (["<", ">"] : List String))
    (hp : p ∈ params) (hnan : parseIntJS rhs.src = none) :
    r5 fn params (.binary op (.ident p) rhs) =
      [(p, mkC p .nan fn "integer" (some op) ((Expr.binary op (.ident p) rhs).src)),
       (p, mkC p .nan fn "integer" (some op) ((Expr.binary op (.ident p) rhs).src))] := by
  simp only [r5]
  rw [if_pos hop, if_pos hp]
  unfold parsePlus
  rw [hnan]

/-- Witness for C10 at `x < '5'` (quoted right-hand side) in
`function f(x)`. -/
theorem C10_r5_nan_on_unparsable_witness :
    r5 "f" ["x"] (.binary "<" (.ident "x") (.strLit sqc "5")) =
      [("x", mkC "x" .nan "f" "integer" (some "<") "x < \x275\x27"),
       ("x", mkC "x" .nan "f" "integer" (some "<") "x < \x275\x27")] :=
  C10_r5_nan_on_unparsable "f" "x" ["x"] (.strLit sqc "5") "<" (by decide) (by decide) (by decide)

/-- Counterexample to C4 as stated: R1 is not restricted to the unary
"not"; on the unary minus node `-p.len` (operator `"-"`, not `"!"`) it
still emits its two constraints. -/
theorem C4_r1_not_only_negation_counterexample :
    ¬ ("-" = "!") ∧
    r1 "f" ["p"] (.unary "-" (.member (.ident "p") (.ident "len"))) =
      [("p", mkC "p" (.str "p = \x7b\x27len\x27: true\x7d") "f" "string" (some "-") "-p.len"),
       ("p", mkC "p" (.boolean false) "f" "string" (some "-") "-p.len")] :=
  ⟨by decide, rfl⟩

/-- C4 amended: for every unary operator (not only "not") applied to a
member access whose object is a declared parameter `p` (occurring once in
the parameter list), R1 emits exactly two constraints on `p`, kind
`string`: the fabricated object-literal text asserting the accessed
property is true with operator equal to the unary operator, and the
boolean literal `false`. -/
theorem C4_r1_any_unary_two_constraints (fn op p : String) (params : List String)
    (prop : Expr) (h : params.count p = 1) :
    r1 fn params (.unary op (.member (.ident p) prop)) =
      [(p, mkC p (.str (p ++ " = \x7b\x27" ++ nameOrUndef (exprName prop) ++ "\x27: true\x7d"))
         fn "string" (some op) ((Expr.unary op (.member (.ident p) prop)).src)),
       (p, mkC p (.boolean false) fn "string" (some op)
         ((Expr.unary op (.member (.ident p) prop)).src))] := by
  simp only [r1]
  simp only [exprName, Option.some.injEq]
  rw [flatMap_count_one p _ params h]

/-- Witness for the amended C4 at `!options.normalize` in
`function f(options)`. -/
theorem C4_r1_any_unary_two_constraints_witness :
    r1 "f" ["options"] (.unary "!" (.member (.ident "options") (.ident "normalize"))) =
      [("options", mkC "options" (.str "options = \x7b\x27normalize\x27: true\x7d") "f" "string"
         (some "!") "!options.normalize"),
       ("options", mkC "options" (.boolean false) "f" "string" (some "!") "!options.normalize")] :=
  C4_r1_any_unary_two_constraints "f" "!" "options" ["options"] (.ident "normalize") (by decide)

/-- Counterexample to C5 as stated: in the D2 branch on `y == "55555"`
inside `function f(x)`, the second synthesized value is the quoted string
`"555553456789"`, which has 12 characters between the quotes, not 10, and
is built from the literal's whole inner text, not its first 3 digits. -/
theorem C5_d2_not_ten_digits_counterexample :
    r4 (fun _ => "0123456789") "f" ["x"] 0
        (.binary "==" (.ident "y") (.strLit dqc "55555")) =
      .ok ([("x", mkC "x" (.str "\x27NEQ - \x2255555\x22\x27") "f" "string" (some "==")
              "y == \x2255555\x22"),
            ("x", mkC "x" (.str "\x22555553456789\x22") "f" "string" (some "==")
              "y == \x2255555\x22")], 1) ∧
    ¬ ("555553456789".length = 10) :=
  ⟨rfl, by decide⟩

/-- C5 amended: in the D2 branch (left identifier not a parameter, exactly
one declared parameter `p`, quoted string right-hand side), R4 emits two
`string` constraints on `p`: the negation sentinel wrapping the original
right-hand text, and a quoted string formed by splicing the quoted
literal's entire inner text onto the last 7 characters of the freshly
generated 10-character digit string; the first 3 characters of the
literal's inner text are preserved exactly when that inner text has
exactly 3 characters, in which case the result is 10 digits long. -/
theorem C5_d2_splice_whole_literal (gen : Nat → String) (fn y p op : String)
    (ctr : Nat) (q : Char) (inner : String)
    (hop : op ∈ (["!=", "!==", "==", "==="] : List String))
    (hy : ¬ y = p) (hq : isQuoteChar q = true)
    (hnl : inner.toList.all (fun ch => ch ≠ nlc) = true) :
    r4 gen fn [p] ctr (.binary op (.ident y) (.strLit q inner)) =
      .ok ([(p, mkC p (.str ("\x27NEQ - " ++ (Expr.strLit q inner).src ++ "\x27")) fn "string"
              (some op) ((Expr.binary op (.ident y) (.strLit q inner)).src)),
            (p, mkC p (.str ("\x22" ++ (inner ++ (gen ctr).drop 3) ++ "\x22")) fn "string"
              (some op) ((Expr.binary op (.ident y) (.strLit q inner)).src))], ctr + 1) := by
  simp only [r4]
  rw [if_pos hop]
  rw [if_neg (show ¬ y ∈ [p] by simp [hy])]
  rw [matchQuoted_strLit hq hnl]

/-- Witness for the amended C5 at `y == "555"` in `function f(x)` with the
stream head `"0123456789"`: the spliced value is `"5553456789"`. -/
theorem C5_d2_splice_whole_literal_witness :
    r4 (fun _ => "0123456789") "f" ["x"] 0
        (.binary "==" (.ident "y") (.strLit dqc "555")) =
      .ok ([("x", mkC "x" (.str "\x27NEQ - \x22555\x22\x27") "f" "string" (some "==")
              "y == \x22555\x22"),
            ("x", mkC "x" (.str "\x225553456789\x22") "f" "string" (some "==")
              "y == \x22555\x22")], 1) :=
  C5_d2_splice_whole_literal (fun _ => "0123456789") "f" "y" "x" "==" 0 dqc "555"
    (by decide) (by decide) (by decide) (by decide)

/-- C1 is violated by the code (code bug): on `fs.readFileSync()` with an
empty argument list inside `function f(p)`, the R2 recognizer does not
skip; reading `arguments[0].name` throws a `TypeError`, so the whole
extraction aborts and even the earlier, well-formed `function g(q)` yields
no constraints — while without the malformed function the extraction of
`g` succeeds. -/
theorem C1_missing_subfield_aborts_extraction :
    constraints (fun _ => "0123456789") (.ok (.other "Program"
      [.funcDecl "g" ["q"] [.binary ">" (.ident "q") (.numLit 5)],
       .funcDecl "f" ["p"] [.call (.member (.ident "fs") (.ident "readFileSync")) []]])) =
      .error (.typeError "Cannot read property name of undefined") ∧
    constraints (fun _ => "0123456789") (.ok (.other "Program"
      [.funcDecl "g" ["q"] [.binary ">" (.ident "q") (.numLit 5)]])) =
      .ok [("g", ⟨[("q", [mkC "q" (.num 4) "g" "integer" (some ">") "q > 5",
                          mkC "q" (.num 6) "g" "integer" (some ">") "q > 5"])], ["q"]⟩)] :=
  ⟨rfl, rfl⟩

/-- C8: an upstream read/parse error is surfaced unchanged to the caller
with no partial result, and on every input the operation either raises an
error or returns a result object. -/
theorem C8_input_error_propagates (gen : Nat → String) (err : JsErr)
    (inp : Except JsErr Expr) :
    constraints gen (.error err) = .error err ∧
    ((∃ e, constraints gen inp = .error e) ∨ (∃ res, constraints gen inp = .ok res)) := by
  constructor
  · rfl
  · cases h : constraints gen inp with
    | error e => exact Or.inl ⟨e, rfl⟩
    | ok r => exact Or.inr ⟨r, rfl⟩

theorem foldlM_ok_preserve {σ α : Type} (P : σ → Prop) (f : σ → α → Except JsErr σ)
    (hf : ∀ s a s', P s → f s a = .ok s' → P s') :
    ∀ (l : List α) (s s' : σ), P s → l.foldlM f s = .ok s' → P s' := by
  intro l
  induction l with
  | nil =>
    intro s s' hP h
    simp only [List.foldlM_nil] at h
    cases h
    exact hP
  | cons a t ih =>
    intro s s' hP h
    rw [List.foldlM_cons] at h
    cases hfa : f s a with
    | error e =>
      rw [hfa] at h
      exact Except.noConfusion h
    | ok s1 =>
      rw [hfa] at h
      exact ih s1 s' (hf s a s1 hP hfa) h

theorem objSet_mem {β : Type} {m : List (String × β)} {k : String} {v : β} :
    ∀ x ∈ objSet m k v, x ∈ m ∨ x = (k, v) := by
  induction m with
  | nil =>
    intro x hx
    simp [objSet] at hx
    exact Or.inr hx
  | cons e rest ih =>
    intro x hx
    rw [objSet] at hx
    split at hx
    · rcases List.mem_cons.mp hx with h | h
      · exact Or.inr h
      · exact Or.inl (List.mem_cons_of_mem _ h)
    · rcases List.mem_cons.mp hx with h | h
      · exact Or.inl (by rw [h]; exact List.mem_cons_self _ _)
      · rcases ih x h with h' | h'
        · exact Or.inl (List.mem_cons_of_mem _ h')
        · exact Or.inr h'

theorem pushC_mem {m : CMap} {k : String} {c : Constraint} :
    ∀ x ∈ pushC m k c, (∃ y ∈ m, x.1 = y.1 ∧ ∀ d ∈ x.2, d ∈ y.2 ∨ (d = c ∧ x.1 = k)) := by
  induction m with
  | nil =>
    intro x hx
    simp [pushC] at hx
  | cons e rest ih =>
    intro x hx
    rw [pushC] at hx
    split at hx
    · next heq =>
      rcases List.mem_cons.mp hx with h | h
      · refine ⟨e, List.mem_cons_self _ _, by rw [h], ?_⟩
        intro d hd
        rw [h] at hd ⊢
        rcases List.mem_append.mp hd with h' | h'
        · exact Or.inl h'
        · simp at h'
          exact Or.inr ⟨h', heq⟩
      · exact ⟨x, List.mem_cons_of_mem _ h, rfl, fun d hd => Or.inl hd⟩
    · rcases List.mem_cons.mp hx with h | h
      · exact ⟨x, by rw [h]; exact List.mem_cons_self _ _, rfl, fun d hd => Or.inl hd⟩
      · rcases ih x h with ⟨y, hy, h1, h2⟩
        exact ⟨y, List.mem_cons_of_mem _ hy, h1, h2⟩

theorem pushC_identInv {params : List String} {m : CMap} {k : String} {c : Constraint}
    (hm : IdentInv params m) (hk : k ∈ params) (hc : c.ident = k) :
    IdentInv params (pushC m k c) := by
  intro e he d hd
  rcases pushC_mem e he with ⟨y, hy, h1, h2⟩
  rcases h2 d hd with h' | ⟨hdc, _⟩
  · exact hm y hy d h'
  · rw [hdc, hc]
    exact hk

theorem applyPushes_identInv {params : List String} :
    ∀ (ps : Pushes) (m : CMap), GoodPushes params ps → IdentInv params m →
      IdentInv params (applyPushes m ps) := by
  intro ps
  induction ps with
  | nil => intro m _ hm; exact hm
  | cons kc t ih =>
    intro m hg hm
    show IdentInv params ((kc :: t).foldl (fun m kc => pushC m kc.1 kc.2) m)
    rw [List.foldl_cons]
    exact ih _ (fun x hx => hg x (List.mem_cons_of_mem _ hx))
      (pushC_identInv hm (hg kc (List.mem_cons_self _ _)).1 (hg kc (List.mem_cons_self _ _)).2)

theorem r1_guard (fn : String) (params : List String) (child : Expr) :
    GoodPushes params (r1 fn params child) := by
  intro kc hkc
  rcases child with n | n | ⟨q, i⟩ | b | ⟨o, pr⟩ | ⟨c, a⟩ | ⟨op, arg⟩ | ⟨op, l, r⟩ | ⟨nm, ps, bd⟩ | ⟨knd, es⟩
  all_goals try (exact absurd hkc (List.not_mem_nil kc))
  rcases arg with n | n | ⟨q, i⟩ | b | ⟨o, pr⟩ | ⟨c, a⟩ | ⟨op2, arg2⟩ | ⟨op2, l, r⟩ | ⟨nm, ps, bd⟩ | ⟨knd, es⟩
  all_goals try (exact absurd hkc (List.not_mem_nil kc))
  simp only [r1, List.mem_flatMap] at hkc
  rcases hkc with ⟨q, hq, hin⟩
  split at hin
  · rcases List.mem_cons.mp hin with h | h
    · subst h; exact ⟨hq, rfl⟩
    · simp only [List.mem_singleton] at h
      subst h; exact ⟨hq, rfl⟩
  · simp at hin

theorem goodPushes_nil (params : List String) : GoodPushes params [] := by
  intro kc hkc
  exact absurd hkc (List.not_mem_nil kc)

theorem fsLoop_nil_args (emit : String → Pushes) :
    ∀ (params : List String) (ps : Pushes), fsLoop emit [] params = .ok ps → ps = [] := by
  intro params ps h
  cases params with
  | nil => cases h; rfl
  | cons p pt => exact Except.noConfusion h

theorem fsLoop_guard (emit : String → Pushes) (a : Expr) (rest : List Expr) :
    ∀ (params : List String) (ps : Pushes), fsLoop emit (a :: rest) params = .ok ps →
      ∀ kc ∈ ps, ∃ p, p ∈ params ∧ kc ∈ emit p := by
  intro params
  induction params with
  | nil =>
    intro ps h kc hkc
    cases h
    exact absurd hkc (List.not_mem_nil kc)
  | cons p pt ih =>
    intro ps h kc hkc
    replace h : (fsLoop emit (a :: rest) pt >>= fun rest' =>
        if exprName a = some p then Except.ok (emit p ++ rest')
        else Except.ok rest') = Except.ok ps := h
    cases hr : fsLoop emit (a :: rest) pt with
    | error e =>
      rw [hr] at h
      exact Except.noConfusion h
    | ok ps' =>
      rw [hr] at h
      replace h : (if exprName a = some p then Except.ok (emit p ++ ps')
          else Except.ok ps') = Except.ok ps := h
      by_cases hc : exprName a = some p
      · rw [if_pos hc] at h
        cases h
        rcases List.mem_append.mp hkc with hm | hm
        · exact ⟨p, List.mem_cons_self _ _, hm⟩
        · rcases ih ps' hr kc hm with ⟨p', hp', hin⟩
          exact ⟨p', List.mem_cons_of_mem _ hp', hin⟩
      · rw [if_neg hc] at h
        cases h
        rcases ih ps hr kc hkc with ⟨p', hp', hin⟩
        exact ⟨p', List.mem_cons_of_mem _ hp', hin⟩

theorem r2_guard (fn : String) (params : List String) (child : Expr) (ps : Pushes)
    (h : r2 fn params child = .ok ps) : GoodPushes params ps := by
  rcases child with n | n | ⟨q, i⟩ | b | ⟨o, pr⟩ | ⟨callee, args⟩ | ⟨op, arg⟩ | ⟨op, l, r⟩ | ⟨nm, prm, bd⟩ | ⟨knd, es⟩
  all_goals try (cases h; exact goodPushes_nil params)
  intro kc hkc
  simp only [r2] at h
  split at h
  · cases args with
    | nil =>
      have hnil := fsLoop_nil_args _ params ps h
      subst hnil
      exact absurd hkc (List.not_mem_nil kc)
    | cons a rest =>
      rcases fsLoop_guard _ a rest params ps h kc hkc with ⟨p, hp, hin⟩
      rcases List.mem_cons.mp hin with h1 | h1
      · subst h1; exact ⟨hp, rfl⟩
      · rcases List.mem_cons.mp h1 with h2 | h2
        · subst h2; exact ⟨hp, rfl⟩
        · simp only [List.mem_singleton] at h2
          subst h2; exact ⟨hp, rfl⟩
  · cases h
    exact absurd hkc (List.not_mem_nil kc)

theorem r3_guard (fn : String) (params : List String) (child : Expr) (ps : Pushes)
    (h : r3 fn params child = .ok ps) : GoodPushes params ps := by
  rcases child with n | n | ⟨q, i⟩ | b | ⟨o, pr⟩ | ⟨callee, args⟩ | ⟨op, arg⟩ | ⟨op, l, r⟩ | ⟨nm, prm, bd⟩ | ⟨knd, es⟩
  all_goals try (cases h; exact goodPushes_nil params)
  intro kc hkc
  simp only [r3] at h
  split at h
  · cases args with
    | nil =>
      have hnil := fsLoop_nil_args _ params ps h
      subst hnil
      exact absurd hkc (List.not_mem_nil kc)
    | cons a rest =>
      rcases fsLoop_guard _ a rest params ps h kc hkc with ⟨p, hp, hin⟩
      rcases List.mem_cons.mp hin with h1 | h1
      · subst h1; exact ⟨hp, rfl⟩
      · simp only [List.mem_singleton] at h1
        subst h1; exact ⟨hp, rfl⟩
  · cases h
    exact absurd hkc (List.not_mem_nil kc)

theorem guard_of_ok_nil {params : List String} {ps : Pushes}
    (h : (Except.ok ([] : Pushes) : Except JsErr Pushes) = Except.ok ps) :
    GoodPushes params ps := by
  cases h
  exact goodPushes_nil params

theorem guard_of_ok_nil_pair {params : List String} {pc : Pushes × Nat} {ctr : Nat}
    (h : (Except.ok (([], ctr) : Pushes × Nat) : Except JsErr (Pushes × Nat)) = Except.ok pc) :
    GoodPushes params pc.1 := by
  cases h
  exact goodPushes_nil params

theorem r4_guard (gen : Nat → String) (fn : String) (params : List String) (ctr : Nat)
    (child : Expr) (pc : Pushes × Nat)
    (h : r4 gen fn params ctr child = .ok pc) : GoodPushes params pc.1 := by
  rcases child with n | n | ⟨q, i⟩ | b | ⟨o, pr⟩ | ⟨callee, args⟩ | ⟨op, arg⟩ | ⟨op, l, r⟩ | ⟨nm, prm, bd⟩ | ⟨knd, es⟩
  all_goals try (exact guard_of_ok_nil_pair h)
  rcases l with n | n | ⟨q, i⟩ | b | ⟨o, pr⟩ | ⟨callee, args⟩ | ⟨op2, arg⟩ | ⟨op2, l2, r2⟩ | ⟨nm, prm, bd⟩ | ⟨knd, es⟩
  all_goals simp only [r4, ite_self] at h
  all_goals try (exact guard_of_ok_nil_pair h)
  by_cases hop : op ∈ (["!=", "!==", "==", "==="] : List String)
  case neg =>
    rw [if_neg hop] at h
    exact guard_of_ok_nil_pair h
  rw [if_pos hop] at h
  by_cases hname : n ∈ params
  case pos =>
    rw [if_pos hname] at h
    cases h
    intro kc hkc
    rcases List.mem_cons.mp hkc with h1 | h1
    · subst h1; exact ⟨hname, rfl⟩
    · simp only [List.mem_singleton] at h1
      subst h1; exact ⟨hname, rfl⟩
  case neg =>
    rw [if_neg hname] at h
    rcases params with _ | ⟨p, pt⟩
    · exact guard_of_ok_nil_pair h
    · rcases pt with _ | ⟨p2, pt2⟩
      · cases hm : matchQuoted (Expr.src r) with
        | none => rw [hm] at h; exact Except.noConfusion h
        | some inner =>
          rw [hm] at h
          cases h
          intro kc hkc
          rcases List.mem_cons.mp hkc with h1 | h1
          · subst h1; exact ⟨List.mem_cons_self _ _, rfl⟩
          · simp only [List.mem_singleton] at h1
            subst h1; exact ⟨List.mem_cons_self _ _, rfl⟩
      · exact guard_of_ok_nil_pair h

theorem r5_guard (fn : String) (params : List String) (child : Expr) :
    GoodPushes params (r5 fn params child) := by
  rcases child with n | n | ⟨q, i⟩ | b | ⟨o, pr⟩ | ⟨callee, args⟩ | ⟨op, arg⟩ | ⟨op, l, r⟩ | ⟨nm, prm, bd⟩ | ⟨knd, es⟩
  all_goals try (exact goodPushes_nil params)
  rcases l with n | n | ⟨q, i⟩ | b | ⟨o, pr⟩ | ⟨callee, args⟩ | ⟨op2, arg⟩ | ⟨op2, l2, r2⟩ | ⟨nm, prm, bd⟩ | ⟨knd, es⟩
  all_goals intro kc hkc
  all_goals simp only [r5, ite_self] at hkc
  all_goals try (exact absurd hkc (List.not_mem_nil kc))
  by_cases hop : op ∈ (["<", ">"] : List String)
  case neg =>
    rw [if_neg hop] at hkc
    exact absurd hkc (List.not_mem_nil kc)
  rw [if_pos hop] at hkc
  by_cases hname : n ∈ params
  case pos =>
    rw [if_pos hname] at hkc
    rcases List.mem_cons.mp hkc with h1 | h1
    · subst h1; exact ⟨hname, rfl⟩
    · simp only [List.mem_singleton] at h1
      subst h1; exact ⟨hname, rfl⟩
  case neg =>
    rw [if_neg hname] at hkc
    exact absurd hkc (List.not_mem_nil kc)

theorem r6push_guard (fn : String) (params : List String) (op word expression : String)
    (o : Option String) (ps : Pushes)
    (h : r6push fn params op word expression o = .ok ps) : GoodPushes params ps := by
  cases o with
  | none => exact guard_of_ok_nil h
  | some name =>
    simp only [r6push] at h
    by_cases hname : name ∈ params
    · rw [if_pos hname] at h
      cases h
      intro kc hkc
      simp only [List.mem_singleton] at hkc
      subst hkc
      exact ⟨hname, rfl⟩
    · rw [if_neg hname] at h
      exact guard_of_ok_nil h

theorem r6_guard (fn : String) (params : List String) (child : Expr) (ps : Pushes)
    (h : r6 fn params child = .ok ps) : GoodPushes params ps := by
  rcases child with n | n | ⟨q, i⟩ | b | ⟨o, pr⟩ | ⟨callee, args⟩ | ⟨op, arg⟩ | ⟨op, l, r⟩ | ⟨nm, prm, bd⟩ | ⟨knd, es⟩
  all_goals try (exact guard_of_ok_nil h)
  rcases l with n | n | ⟨q, i⟩ | b | ⟨o, pr⟩ | ⟨callee, largs⟩ | ⟨op2, arg⟩ | ⟨op2, l2, r2⟩ | ⟨nm, prm, bd⟩ | ⟨knd, es⟩
  all_goals try (exact guard_of_ok_nil h)
  rcases callee with n | n | ⟨q, i⟩ | b | ⟨obj, prp⟩ | ⟨c2, a2⟩ | ⟨op2, arg⟩ | ⟨op2, l2, r2⟩ | ⟨nm, prm, bd⟩ | ⟨knd, es⟩
  all_goals try (exact guard_of_ok_nil h)
  simp only [r6] at h
  by_cases hop : op ∈ (["==", "!=", "===", "!=="] : List String)
  case neg =>
    rw [if_neg hop] at h
    exact guard_of_ok_nil h
  rw [if_pos hop] at h
  rcases largs with _ | ⟨a, at'⟩
  · exact Except.noConfusion h
  · exact r6push_guard fn params op _ _ (exprName obj) ps h

theorem visitNode_identInv (gen : Nat → String) (fn : String) (params : List String)
    (st : CMap × Nat) (child : Expr) (st' : CMap × Nat)
    (h : visitNode gen fn params st child = .ok st') (hm : IdentInv params st.1) :
    IdentInv params st'.1 := by
  unfold visitNode at h
  cases h2 : r2 fn params child with
  | error e => rw [h2] at h; exact Except.noConfusion h
  | ok p2 =>
  rw [h2] at h
  cases h3 : r3 fn params child with
  | error e => rw [h3] at h; exact Except.noConfusion h
  | ok p3 =>
  rw [h3] at h
  cases h4 : r4 gen fn params st.2 child with
  | error e => rw [h4] at h; exact Except.noConfusion h
  | ok pc =>
  rw [h4] at h
  cases h6 : r6 fn params child with
  | error e => rw [h6] at h; exact Except.noConfusion h
  | ok p6 =>
  rw [h6] at h
  replace h : Except.ok ((applyPushes (applyPushes (applyPushes (applyPushes (applyPushes
      (applyPushes st.1 (r1 fn params child)) p2) p3) pc.1) (r5 fn params child)) p6,
      pc.2) : CMap × Nat) = Except.ok st' := h
  cases h
  exact applyPushes_identInv p6 _ (r6_guard fn params child p6 h6)
    (applyPushes_identInv (r5 fn params child) _ (r5_guard fn params child)
      (applyPushes_identInv pc.1 _ (r4_guard gen fn params st.2 child pc h4)
        (applyPushes_identInv p3 _ (r3_guard fn params child p3 h3)
          (applyPushes_identInv p2 _ (r2_guard fn params child p2 h2)
            (applyPushes_identInv (r1 fn params child) _ (r1_guard fn params child) hm)))))

theorem initMap_snd_nil :
    ∀ (params : List String) (m0 : CMap), (∀ e ∈ m0, e.2 = []) →
      ∀ e ∈ params.foldl (fun m p => objSet m p []) m0, e.2 = [] := by
  intro params
  induction params with
  | nil => intro m0 h e he; exact h e he
  | cons p pt ih =>
    intro m0 h e he
    rw [List.foldl_cons] at he
    refine ih _ ?_ e he
    intro x hx
    rcases objSet_mem x hx with h' | h'
    · exact h x h'
    · rw [h']

theorem initMap_identInv (params : List String) : IdentInv params (initMap params) := by
  intro e he c hc
  have : e.2 = [] := initMap_snd_nil params [] (by intro x hx; cases hx) e he
  rw [this] at hc
  exact absurd hc (List.not_mem_nil c)

theorem traverse_identInv (gen : Nat → String) (fn : String) (params : List String)
    (e : Expr) (st st' : CMap × Nat)
    (h : traverseN (visitNode gen fn params) e st = .ok st')
    (hm : IdentInv params st.1) : IdentInv params st'.1 :=
  foldlM_ok_preserve (fun s => IdentInv params s.1) _
    (fun s a s' hP hf => visitNode_identInv gen fn params s a s' hf hP)
    (preorder e) st st' hm h

theorem outerVisit_recordInv (gen : Nat → String) (st : ExtState) (node : Expr)
    (st' : ExtState) (h : outerVisit gen st node = .ok st')
    (hq : ∀ fr ∈ st.res, ∀ e ∈ fr.2.constraints, ∀ c ∈ e.2, c.ident ∈ fr.2.params) :
    ∀ fr ∈ st'.res, ∀ e ∈ fr.2.constraints, ∀ c ∈ e.2, c.ident ∈ fr.2.params := by
  rcases node with n | n | ⟨q, i⟩ | b | ⟨o, pr⟩ | ⟨callee, args⟩ | ⟨op, arg⟩ | ⟨op, l, r⟩ | ⟨nm, prm, bd⟩ | ⟨knd, es⟩
  all_goals try (cases h; exact hq)
  simp only [outerVisit] at h
  cases hi : traverseN (visitNode gen nm prm) (.funcDecl nm prm bd) (initMap prm, st.ctr) with
  | error e => rw [hi] at h; exact Except.noConfusion h
  | ok inner =>
    rw [hi] at h
    replace h : Except.ok (⟨objSet st.res nm ⟨inner.1, prm⟩, inner.2⟩ : ExtState) =
        Except.ok st' := h
    cases h
    intro fr hfr
    rcases objSet_mem fr hfr with h' | h'
    · exact hq fr h'
    · rw [h']
      intro e he c hc
      exact traverse_identInv gen nm prm _ _ inner hi (initMap_identInv prm) e he c hc

/-- C6: whenever extraction succeeds, every constraint recorded in any
function's constraint map has an `ident` equal to one of that function's
declared parameter names — every emitting branch (including the D2
single-parameter fallback) only pushes under a declared parameter key with
`ident` set to that key. -/
theorem C6_constraint_ident_in_params (gen : Nat → String) (prog : Expr)
    (res : ExtResult) (h : constraints gen (.ok prog) = .ok res) :
    ∀ fr ∈ res, ∀ e ∈ fr.2.constraints, ∀ c ∈ e.2, c.ident ∈ fr.2.params := by
  unfold constraints at h
  replace h : (traverseN (outerVisit gen) prog ⟨[], 0⟩ >>= fun st =>
      Except.ok st.res) = Except.ok res := h
  cases ht : traverseN (outerVisit gen) prog ⟨[], 0⟩ with
  | error e => rw [ht] at h; exact Except.noConfusion h
  | ok st =>
    rw [ht] at h
    replace h : Except.ok st.res = Except.ok res := h
    cases h
    exact foldlM_ok_preserve
      (fun s : ExtState => ∀ fr ∈ s.res, ∀ e ∈ fr.2.constraints, ∀ c ∈ e.2, c.ident ∈ fr.2.params)
      _ (fun s a s' hP hf => outerVisit_recordInv gen s a s' hf hP)
      (preorder prog) _ st (by intro fr hfr; exact absurd hfr (List.not_mem_nil fr)) ht

/-- Witness for C6: on `function f(x) { x > 5 }` the recorded constraint's
`ident` is the declared parameter `x`. -/
theorem C6_constraint_ident_in_params_witness :
    (mkC "x" (.num 4) "f" "integer" (some ">") "x > 5").ident ∈ ["x"] :=
  C6_constraint_ident_in_params (fun _ => "0123456789")
    (.other "Program" [.funcDecl "f" ["x"] [.binary ">" (.ident "x") (.numLit 5)]])
    [("f", ⟨[("x", [mkC "x" (.num 4) "f" "integer" (some ">") "x > 5",
                    mkC "x" (.num 6) "f" "integer" (some ">") "x > 5"])], ["x"]⟩)]
    rfl
    ("f", ⟨[("x", [mkC "x" (.num 4) "f" "integer" (some ">") "x > 5",
                   mkC "x" (.num 6) "f" "integer" (some ">") "x > 5"])], ["x"]⟩)
    (by simp)
    ("x", [mkC "x" (.num 4) "f" "integer" (some ">") "x > 5",
           mkC "x" (.num 6) "f" "integer" (some ">") "x > 5"])
    (by simp)
    (mkC "x" (.num 4) "f" "integer" (some ">") "x > 5")
    (by simp)

theorem objSet_keys {β : Type} (k : String) (v : β) :
    ∀ (m : List (String × β)), (objSet m k v).map Prod.fst =
      if k ∈ m.map Prod.fst then m.map Prod.fst else m.map Prod.fst ++ [k] := by
  intro m
  induction m with
  | nil => simp [objSet]
  | cons e rest ih =>
    rw [objSet]
    by_cases hk : e.1 = k
    · rw [if_pos hk]
      simp only [List.map_cons]
      rw [if_pos (by rw [hk]; exact List.mem_cons_self _ _), hk]
    · rw [if_neg hk]
      simp only [List.map_cons, ih]
      by_cases hm : k ∈ rest.map Prod.fst
      · rw [if_pos hm, if_pos (List.mem_cons_of_mem _ hm)]
      · rw [if_neg hm, if_neg (by
          intro hc
          rcases List.mem_cons.mp hc with hc | hc
          · exact hk hc.symm
          · exact hm hc)]
        simp

theorem pushC_keys (k : String) (c : Constraint) :
    ∀ (m : CMap), (pushC m k c).map Prod.fst = m.map Prod.fst := by
  intro m
  induction m with
  | nil => rfl
  | cons e rest ih =>
    rw [pushC]
    by_cases hk : e.1 = k
    · rw [if_pos hk]
      simp
    · rw [if_neg hk]
      simp [ih]

theorem applyPushes_keys :
    ∀ (ps : Pushes) (m : CMap), (applyPushes m ps).map Prod.fst = m.map Prod.fst := by
  intro ps
  induction ps with
  | nil => intro m; rfl
  | cons kc t ih =>
    intro m
    show ((kc :: t).foldl (fun m kc => pushC m kc.1 kc.2) m).map Prod.fst = _
    rw [List.foldl_cons]
    rw [show List.foldl (fun m kc => pushC m kc.1 kc.2) (pushC m kc.1 kc.2) t =
      applyPushes (pushC m kc.1 kc.2) t from rfl]
    rw [ih (pushC m kc.1 kc.2)]
    exact pushC_keys kc.1 kc.2 m

theorem initMap_keys_aux :
    ∀ (params : List String) (m0 : CMap),
      (params.foldl (fun m p => objSet m p []) m0).map Prod.fst =
        params.foldl (fun ks p => if p ∈ ks then ks else ks ++ [p]) (m0.map Prod.fst) := by
  intro params
  induction params with
  | nil => intro m0; rfl
  | cons p pt ih =>
    intro m0
    rw [List.foldl_cons, List.foldl_cons, ih, objSet_keys]

theorem initMap_keys (params : List String) :
    (initMap params).map Prod.fst = dedupFirst params :=
  initMap_keys_aux params []

theorem mem_dedupFirst_aux :
    ∀ (l : List String) (acc : List String) (p : String), p ∈ l ∨ p ∈ acc →
      p ∈ l.foldl (fun ks q => if q ∈ ks then ks else ks ++ [q]) acc := by
  intro l
  induction l with
  | nil =>
    intro acc p hp
    rcases hp with hp | hp
    · exact absurd hp (List.not_mem_nil p)
    · exact hp
  | cons q t ih =>
    intro acc p hp
    rw [List.foldl_cons]
    by_cases hq : q ∈ acc
    · rw [if_pos hq]
      rcases hp with hp | hp
      · rcases List.mem_cons.mp hp with hp | hp
        · subst hp; exact ih acc p (Or.inr hq)
        · exact ih acc p (Or.inl hp)
      · exact ih acc p (Or.inr hp)
    · rw [if_neg hq]
      rcases hp with hp | hp
      · rcases List.mem_cons.mp hp with hp | hp
        · subst hp; exact ih _ p (Or.inr (by simp))
        · exact ih _ p (Or.inl hp)
      · exact ih _ p (Or.inr (by simp [hp]))

theorem mem_dedupFirst {params : List String} {p : String} (hp : p ∈ params) :
    p ∈ dedupFirst params :=
  mem_dedupFirst_aux params [] p (Or.inl hp)

theorem dedupFirst_nodup_aux :
    ∀ (l : List String) (acc : List String), (∀ x ∈ l, ¬ x ∈ acc) → l.Nodup →
      l.foldl (fun ks q => if q ∈ ks then ks else ks ++ [q]) acc = acc ++ l := by
  intro l
  induction l with
  | nil => intro acc _ _; simp
  | cons q t ih =>
    intro acc hacc hnd
    rw [List.foldl_cons, if_neg (hacc q (List.mem_cons_self _ _))]
    rw [ih (acc ++ [q]) ?_ (List.Nodup.of_cons hnd)]
    · simp
    · intro x hx hmem
      rcases List.mem_append.mp hmem with hm | hm
      · exact hacc x (List.mem_cons_of_mem _ hx) hm
      · simp only [List.mem_singleton] at hm
        subst hm
        exact (List.nodup_cons.mp hnd).1 hx

theorem dedupFirst_nodup {params : List String} (h : params.Nodup) :
    dedupFirst params = params := by
  rw [dedupFirst, dedupFirst_nodup_aux params [] (by intro x _ hc; exact absurd hc (List.not_mem_nil x)) h]
  simp

theorem visitNode_keys (gen : Nat → String) (fn : String) (params : List String)
    (st : CMap × Nat) (child : Expr) (st' : CMap × Nat)
    (h : visitNode gen fn params st child = .ok st') :
    st'.1.map Prod.fst = st.1.map Prod.fst := by
  unfold visitNode at h
  cases h2 : r2 fn params child with
  | error e => rw [h2] at h; exact Except.noConfusion h
  | ok p2 =>
  rw [h2] at h
  cases h3 : r3 fn params child with
  | error e => rw [h3] at h; exact Except.noConfusion h
  | ok p3 =>
  rw [h3] at h
  cases h4 : r4 gen fn params st.2 child with
  | error e => rw [h4] at h; exact Except.noConfusion h
  | ok pc =>
  rw [h4] at h
  cases h6 : r6 fn params child with
  | error e => rw [h6] at h; exact Except.noConfusion h
  | ok p6 =>
  rw [h6] at h
  replace h : Except.ok ((applyPushes (applyPushes (applyPushes (applyPushes (applyPushes
      (applyPushes st.1 (r1 fn params child)) p2) p3) pc.1) (r5 fn params child)) p6,
      pc.2) : CMap × Nat) = Except.ok st' := h
  cases h
  simp only [applyPushes_keys]

theorem outerVisit_recordKeys (gen : Nat → String) (st : ExtState) (node : Expr)
    (st' : ExtState) (h : outerVisit gen st node = .ok st')
    (hq : ∀ fr ∈ st.res, fr.2.constraints.map Prod.fst = dedupFirst fr.2.params) :
    ∀ fr ∈ st'.res, fr.2.constraints.map Prod.fst = dedupFirst fr.2.params := by
  rcases node with n | n | ⟨q, i⟩ | b | ⟨o, pr⟩ | ⟨callee, args⟩ | ⟨op, arg⟩ | ⟨op, l, r⟩ | ⟨nm, prm, bd⟩ | ⟨knd, es⟩
  all_goals try (cases h; exact hq)
  simp only [outerVisit] at h
  cases hi : traverseN (visitNode gen nm prm) (.funcDecl nm prm bd) (initMap prm, st.ctr) with
  | error e => rw [hi] at h; exact Except.noConfusion h
  | ok inner =>
    rw [hi] at h
    replace h : Except.ok (⟨objSet st.res nm ⟨inner.1, prm⟩, inner.2⟩ : ExtState) =
        Except.ok st' := h
    cases h
    intro fr hfr
    rcases objSet_mem fr hfr with h' | h'
    · exact hq fr h'
    · rw [h']
      show inner.1.map Prod.fst = dedupFirst prm
      have hkeys := foldlM_ok_preserve
        (fun s : CMap × Nat => s.1.map Prod.fst = dedupFirst prm) _
        (fun s a s' hP hf => by
          show s'.1.map Prod.fst = dedupFirst prm
          rw [visitNode_keys gen nm prm s a s' hf]
          exact hP)
        (preorder (.funcDecl nm prm bd)) _ inner (initMap_keys prm) hi
      exact hkeys

/-- Counterexample to C7 as stated: `function f(a, a) { }` has N = 2
identifier-only parameters, but the lodash `zipObject` object collapses the
duplicate name, so the record's `constraints` mapping has exactly one
entry, not two. -/
theorem C7_duplicate_params_collapse_counterexample :
    constraints (fun _ => "0123456789") (.ok (.other "Program"
      [.funcDecl "f" ["a", "a"] []])) =
      .ok [("f", ⟨[("a", [])], ["a", "a"]⟩)] ∧
    ¬ (([("a", ([] : List Constraint))].length) = (["a", "a"].length)) :=
  ⟨rfl, by decide⟩

/-- C7 amended: whenever extraction succeeds, every FunctionRecord's
`constraints` mapping has exactly one entry per distinct parameter name, in
first-occurrence declaration order (`dedupFirst`), so a parameter matched
by no recognizer still has its (empty) entry rather than being absent; when
the declared names are pairwise distinct this is exactly one entry per
parameter in declaration order. -/
theorem C7_constraints_keys_dedup_params (gen : Nat → String) (prog : Expr)
    (res : ExtResult) (h : constraints gen (.ok prog) = .ok res) :
    ∀ fr ∈ res, fr.2.constraints.map Prod.fst = dedupFirst fr.2.params ∧
      (∀ p ∈ fr.2.params, p ∈ fr.2.constraints.map Prod.fst) ∧
      (fr.2.params.Nodup → fr.2.constraints.map Prod.fst = fr.2.params) := by
  unfold constraints at h
  replace h : (traverseN (outerVisit gen) prog ⟨[], 0⟩ >>= fun st =>
      Except.ok st.res) = Except.ok res := h
  cases ht : traverseN (outerVisit gen) prog ⟨[], 0⟩ with
  | error e => rw [ht] at h; exact Except.noConfusion h
  | ok st =>
    rw [ht] at h
    replace h : Except.ok st.res = Except.ok res := h
    cases h
    have hkeys := foldlM_ok_preserve
      (fun s : ExtState => ∀ fr ∈ s.res, fr.2.constraints.map Prod.fst = dedupFirst fr.2.params)
      _ (fun s a s' hP hf => outerVisit_recordKeys gen s a s' hf hP)
      (preorder prog) _ st (by intro fr hfr; exact absurd hfr (List.not_mem_nil fr)) ht
    intro fr hfr
    refine ⟨hkeys fr hfr, ?_, ?_⟩
    · intro p hp
      rw [hkeys fr hfr]
      exact mem_dedupFirst hp
    · intro hnd
      rw [hkeys fr hfr, dedupFirst_nodup hnd]

/-- Witness for the amended C7 at `function f(x, y) { }`: the keys of the
constraints mapping are exactly the two parameters in order. -/
theorem C7_constraints_keys_dedup_params_witness :
    ([("x", ([] : List Constraint)), ("y", [])].map Prod.fst = dedupFirst ["x", "y"]) ∧
      (∀ p ∈ ["x", "y"], p ∈ [("x", ([] : List Constraint)), ("y", [])].map Prod.fst) ∧
      ((["x", "y"] : List String).Nodup →
        [("x", ([] : List Constraint)), ("y", [])].map Prod.fst = ["x", "y"]) :=
  C7_constraints_keys_dedup_params (fun _ => "0123456789")
    (.other "Program" [.funcDecl "f" ["x", "y"] []])
    [("f", ⟨[("x", []), ("y", [])], ["x", "y"]⟩)]
    rfl
    ("f", ⟨[("x", []), ("y", [])], ["x", "y"]⟩)
    (by simp)

theorem pushC_erase (k : String) (c : Constraint) :
    ∀ (m : CMap), eraseMap (pushC m k c) = pushC (eraseMap m) k (eraseC c) := by
  intro m
  induction m with
  | nil => rfl
  | cons e rest ih =>
    rw [pushC]
    by_cases hk : e.1 = k
    · rw [if_pos hk]
      simp only [eraseMap, List.map_cons, pushC]
      rw [if_pos hk]
      simp
    · rw [if_neg hk]
      simp only [eraseMap, List.map_cons, pushC]
      rw [if_neg hk]
      simp only [List.cons.injEq]
      exact ⟨trivial, ih⟩

theorem applyPushes_erase :
    ∀ (ps : Pushes) (m : CMap),
      eraseMap (applyPushes m ps) = applyPushes (eraseMap m) (erasePushes ps) := by
  intro ps
  induction ps with
  | nil => intro m; rfl
  | cons kc t ih =>
    intro m
    show eraseMap ((kc :: t).foldl (fun m kc => pushC m kc.1 kc.2) m) = _
    rw [List.foldl_cons]
    rw [show List.foldl (fun m kc => pushC m kc.1 kc.2) (pushC m kc.1 kc.2) t =
      applyPushes (pushC m kc.1 kc.2) t from rfl]
    rw [ih (pushC m kc.1 kc.2), pushC_erase]
    rfl

theorem objSet_erase (k : String) (rec : FunctionRecord) :
    ∀ (res : ExtResult), eraseRes (objSet res k rec) = objSet (eraseRes res) k (eraseRec rec) := by
  intro res
  induction res with
  | nil => rfl
  | cons e rest ih =>
    rw [objSet]
    by_cases hk : e.1 = k
    · rw [if_pos hk]
      simp only [eraseRes, List.map_cons, objSet]
      rw [if_pos hk]
    · rw [if_neg hk]
      simp only [eraseRes, List.map_cons, objSet]
      rw [if_neg hk]
      simp only [List.cons.injEq]
      exact ⟨trivial, ih⟩

theorem r4_erase (g1 g2 : Nat → String) (fn : String) (params : List String)
    (ctr : Nat) (child : Expr) :
    (r4 g1 fn params ctr child).map (fun pc => (erasePushes pc.1, pc.2)) =
      (r4 g2 fn params ctr child).map (fun pc => (erasePushes pc.1, pc.2)) := by
  rcases child with n | n | ⟨q, i⟩ | b | ⟨o, pr⟩ | ⟨callee, args⟩ | ⟨op, arg⟩ | ⟨op, l, r⟩ | ⟨nm, prm, bd⟩ | ⟨knd, es⟩
  all_goals try rfl
  rcases l with n | n | ⟨q, i⟩ | b | ⟨o, pr⟩ | ⟨callee, args⟩ | ⟨op2, arg⟩ | ⟨op2, l2, r2⟩ | ⟨nm, prm, bd⟩ | ⟨knd, es⟩
  all_goals try rfl
  simp only [r4]
  by_cases hop : op ∈ (["!=", "!==", "==", "==="] : List String)
  case neg =>
    rw [if_neg hop, if_neg hop]
  case pos =>
  rw [if_pos hop, if_pos hop]
  by_cases hname : n ∈ params
  case pos =>
    rw [if_pos hname, if_pos hname]
  case neg =>
    rw [if_neg hname, if_neg hname]
    rcases params with _ | ⟨p, pt⟩
    · rfl
    · rcases pt with _ | ⟨p2, pt2⟩
      · cases hm : matchQuoted (Expr.src r) with
        | none => rfl
        | some inner =>
          simp [Except.map, erasePushes, eraseC, mkC]
      · rfl

theorem visitNode_erase (g1 g2 : Nat → String) (fn : String) (params : List String)
    (m1 m2 : CMap) (k1 k2 : Nat) (child : Expr) (hm : eraseMap m1 = eraseMap m2)
    (hk : k1 = k2) :
    (visitNode g1 fn params (m1, k1) child).map eraseSt =
      (visitNode g2 fn params (m2, k2) child).map eraseSt := by
  subst hk
  rename Nat => k
  unfold visitNode
  cases h2 : r2 fn params child with
  | error e => rfl
  | ok p2 =>
  cases h3 : r3 fn params child with
  | error e => rfl
  | ok p3 =>
  have h4e := r4_erase g1 g2 fn params k child
  cases h4a : r4 g1 fn params k child with
  | error e1 =>
    cases h4b : r4 g2 fn params k child with
    | error e2 =>
      rw [h4a, h4b] at h4e
      simp only [Except.map] at h4e
      injection h4e with he
      rw [he]
      rfl
    | ok pc2 =>
      rw [h4a, h4b] at h4e
      simp [Except.map] at h4e
  | ok pc1 =>
    cases h4b : r4 g2 fn params k child with
    | error e2 =>
      rw [h4a, h4b] at h4e
      simp [Except.map] at h4e
    | ok pc2 =>
      rw [h4a, h4b] at h4e
      simp only [Except.map] at h4e
      injection h4e with he
      injection he with hpe hce
      cases h6 : r6 fn params child with
      | error e => rfl
      | ok p6 =>
        show Except.ok (eraseSt (applyPushes (applyPushes (applyPushes (applyPushes (applyPushes
            (applyPushes m1 (r1 fn params child)) p2) p3) pc1.1) (r5 fn params child)) p6,
            pc1.2)) =
          Except.ok (eraseSt (applyPushes (applyPushes (applyPushes (applyPushes (applyPushes
            (applyPushes m2 (r1 fn params child)) p2) p3) pc2.1) (r5 fn params child)) p6,
            pc2.2))
        simp only [eraseSt]
        refine congrArg Except.ok ?_
        rw [Prod.mk.injEq]
        constructor
        · simp only [applyPushes_erase, hm, hpe]
        · exact hce

theorem foldlM_erase_sim {σ : Type} (er : σ → σ)
    (f1 f2 : σ → Expr → Except JsErr σ)
    (hstep : ∀ s1 s2 a, er s1 = er s2 → (f1 s1 a).map er = (f2 s2 a).map er) :
    ∀ (l : List Expr) (s1 s2 : σ), er s1 = er s2 →
      (l.foldlM f1 s1).map er = (l.foldlM f2 s2).map er := by
  intro l
  induction l with
  | nil =>
    intro s1 s2 h
    show Except.ok (er s1) = Except.ok (er s2)
    rw [h]
  | cons a t ih =>
    intro s1 s2 h
    rw [List.foldlM_cons, List.foldlM_cons]
    have hs := hstep s1 s2 a h
    cases hf1 : f1 s1 a with
    | error e1 =>
      cases hf2 : f2 s2 a with
      | error e2 =>
        rw [hf1, hf2] at hs
        simp only [Except.map] at hs
        injection hs with he
        rw [he]
        rfl
      | ok s2' =>
        rw [hf1, hf2] at hs
        simp [Except.map] at hs
    | ok s1' =>
      cases hf2 : f2 s2 a with
      | error e2 =>
        rw [hf1, hf2] at hs
        simp [Except.map] at hs
      | ok s2' =>
        rw [hf1, hf2] at hs
        simp only [Except.map] at hs
        injection hs with hs'
        exact ih s1' s2' hs'

theorem outerVisit_erase (g1 g2 : Nat → String) (st1 st2 : ExtState) (node : Expr)
    (h : eraseExt st1 = eraseExt st2) :
    (outerVisit g1 st1 node).map eraseExt = (outerVisit g2 st2 node).map eraseExt := by
  have h2 := h
  simp only [eraseExt] at h2
  injection h2 with hres hctr
  rcases node with n | n | ⟨q, i⟩ | b | ⟨o, pr⟩ | ⟨callee, args⟩ | ⟨op, arg⟩ | ⟨op, l, r⟩ | ⟨nm, prm, bd⟩ | ⟨knd, es⟩
  all_goals try (simp only [outerVisit, Except.map]; rw [h])
  simp only [outerVisit]
  have hsim := foldlM_erase_sim eraseSt (visitNode g1 nm prm) (visitNode g2 nm prm)
    (fun s1 s2 a hs => by
      have hs2 := hs
      simp only [eraseSt] at hs2
      injection hs2 with hmm hcc
      exact visitNode_erase g1 g2 nm prm s1.1 s2.1 s1.2 s2.2 a hmm hcc)
    (preorder (.funcDecl nm prm bd)) (initMap prm, st1.ctr) (initMap prm, st2.ctr)
    (by rw [hctr])
  replace hsim : Except.map eraseSt (traverseN (visitNode g1 nm prm)
        (Expr.funcDecl nm prm bd) (initMap prm, st1.ctr)) =
      Except.map eraseSt (traverseN (visitNode g2 nm prm)
        (Expr.funcDecl nm prm bd) (initMap prm, st2.ctr)) := hsim
  cases hi1 : traverseN (visitNode g1 nm prm) (.funcDecl nm prm bd) (initMap prm, st1.ctr) with
  | error e1 =>
    cases hi2 : traverseN (visitNode g2 nm prm) (.funcDecl nm prm bd) (initMap prm, st2.ctr) with
    | error e2 =>
      rw [hi1, hi2] at hsim
      simp only [Except.map] at hsim
      injection hsim with he
      rw [he]
      rfl
    | ok i2 =>
      rw [hi1, hi2] at hsim
      simp [Except.map] at hsim
  | ok i1 =>
    cases hi2 : traverseN (visitNode g2 nm prm) (.funcDecl nm prm bd) (initMap prm, st2.ctr) with
    | error e2 =>
      rw [hi1, hi2] at hsim
      simp [Except.map] at hsim
    | ok i2 =>
      rw [hi1, hi2] at hsim
      simp only [Except.map] at hsim
      injection hsim with he
      have he2 := he
      simp only [eraseSt] at he2
      injection he2 with hm1 hc1
      show Except.ok (eraseExt ⟨objSet st1.res nm ⟨i1.1, prm⟩, i1.2⟩) =
        Except.ok (eraseExt ⟨objSet st2.res nm ⟨i2.1, prm⟩, i2.2⟩)
      refine congrArg Except.ok ?_
      simp only [eraseExt, objSet_erase]
      rw [hres, hc1]
      show ExtState.mk (objSet (eraseRes st2.res) nm (eraseRec ⟨i1.1, prm⟩)) i2.2 = _
      rw [show eraseRec ⟨i1.1, prm⟩ = eraseRec ⟨i2.1, prm⟩ by simp only [eraseRec]; rw [hm1]]

/-- C9: two extraction runs over the same tree with arbitrary (different)
random-stream states produce outcomes that are equal after replacing every
constraint's `value` by a fixed marker: the same success/failure, the same
functions, and per function the same constraint lists with identical
counts, `ident`s, `kind`s, operators and expressions — only the generated
values (the D2 synthesized digit string) can differ. -/
theorem C9_structural_determinism (g1 g2 : Nat → String) (inp : Except JsErr Expr) :
    eraseOut (constraints g1 inp) = eraseOut (constraints g2 inp) := by
  cases inp with
  | error e => rfl
  | ok prog =>
    have hsim := foldlM_erase_sim eraseExt (outerVisit g1) (outerVisit g2)
      (fun s1 s2 a hs => outerVisit_erase g1 g2 s1 s2 a hs)
      (preorder prog) ⟨[], 0⟩ ⟨[], 0⟩ rfl
    replace hsim : Except.map eraseExt (traverseN (outerVisit g1) prog ⟨[], 0⟩) =
        Except.map eraseExt (traverseN (outerVisit g2) prog ⟨[], 0⟩) := hsim
    rw [show constraints g1 (Except.ok prog) =
        (traverseN (outerVisit g1) prog ⟨[], 0⟩ >>= fun st => Except.ok st.res) from rfl]
    rw [show constraints g2 (Except.ok prog) =
        (traverseN (outerVisit g2) prog ⟨[], 0⟩ >>= fun st => Except.ok st.res) from rfl]
    cases ht1 : traverseN (outerVisit g1) prog ⟨[], 0⟩ with
    | error e1 =>
      cases ht2 : traverseN (outerVisit g2) prog ⟨[], 0⟩ with
      | error e2 =>
        rw [ht1, ht2] at hsim
        simp only [Except.map] at hsim
        injection hsim with he
        show eraseOut (Except.error e1) = eraseOut (Except.error e2)
        rw [he]
      | ok s2 =>
        rw [ht1, ht2] at hsim
        simp [Except.map] at hsim
    | ok s1 =>
      cases ht2 : traverseN (outerVisit g2) prog ⟨[], 0⟩ with
      | error e2 =>
        rw [ht1, ht2] at hsim
        simp [Except.map] at hsim
      | ok s2 =>
        rw [ht1, ht2] at hsim
        simp only [Except.map] at hsim
        injection hsim with he
        have he2 := he
        simp only [eraseExt] at he2
        injection he2 with hres hctr
        show eraseOut (Except.ok s1.res) = eraseOut (Except.ok s2.res)
        simp only [eraseOut]
        rw [hres]
